import Mathlib

/-!
Verification of the DeltaRuntime core (content-addressed blob store, overlay
view, workspace normalizer, runtime planner and builder) against its
specification.  The Rust sources under `src-tauri/src/` are shallowly embedded:
file contents are byte lists, paths are component lists (mirroring `PathBuf`),
the on-disk filesystem is a partial map from paths to contents, and the blob
index (`HashMap<String, Vec<BlobReference>>`) is an association list with
unique keys.  The BLAKE3 hash is an explicit function parameter `hash`
(deterministic, as in the source); digests are carried as their 64-hex-char
rendering, and the `to_hex`/`from_hex` round trip of `blake3::Hash` is elided
(index keys are produced by `to_hex`, on which `from_hex` always succeeds).
-/

namespace DeltaRuntime

/-! ### Filesystem model -/

/-- File contents: a list of bytes. -/
abbrev Content := List Nat

/-- A filesystem path, as its list of components (mirroring `PathBuf`). -/
abbrev FsPath := List String

/-- A BLAKE3 digest, rendered as a hex string (`blake3::Hash::to_hex`). -/
abbrev Digest := String

/-- The filesystem: a partial map from paths to file contents. -/
def FS := FsPath → Option Content

/-- Writing a file (`fs::copy` / `fs::write` target state). -/
def FS.write (fs : FS) (p : FsPath) (c : Content) : FS :=
  fun q => if q = p then some c else fs q

/-- Removing a file (`fs::remove_file`; removing an absent path is a no-op). -/
def FS.remove (fs : FS) (p : FsPath) : FS :=
  fun q => if q = p then none else fs q

/-! ### Blob cache model (`blob_cache.rs`) -/

/-- `BlobReference`: one logical user of a blob. -/
structure BlobReference where
  profile : String
  rel_path : String
deriving DecidableEq

/-- The reference list held for one digest in `index.json`. -/
abbrev RefList := List BlobReference

/-- `BlobIndex.refs`: the `HashMap<String, Vec<BlobReference>>`, modelled as an
association list from digests to reference lists.  `HashMap` keys are unique;
iteration order of the map is modelled as list order (one linearization of the
unspecified `HashMap` order). -/
abbrev BlobIndex := List (Digest × RefList)

/-- `BlobPath`: a digest together with the blob file location. -/
structure BlobPath where
  hash : Digest
  path : FsPath
deriving DecidableEq

/-- `BlobCache::get_blob_path`: `cache_dir/blobs/blake3/<first two hex chars>/<digest>`. -/
def get_blob_path (cache_dir : FsPath) (h : Digest) : FsPath :=
  cache_dir ++ ["blobs", "blake3", h.take 2, h]

/-- `BlobCache::ensure_blob`: hash the file; if the blob file already exists
return it with the filesystem untouched, otherwise copy the source into the
blob path.  `none` models the `io::Result` error when the source file cannot
be read. -/
def ensure_blob (hash : Content → Digest) (cache_dir : FsPath) (fs : FS) (file_path : FsPath) :
    Option (BlobPath × FS) :=
  match fs file_path with
  | none => none
  | some content =>
    let h := hash content
    let bp := get_blob_path cache_dir h
    match fs bp with
    | some _ => some (⟨h, bp⟩, fs)
    | none => some (⟨h, bp⟩, FS.write fs bp content)

/-- Whether a reference list contains the pair `(profile, rel_path)`
(the `refs.iter().any(...)` / `r.profile == profile && r.rel_path == rel_path`
checks of `blob_cache.rs`). -/
def refsContain (refs : RefList) (p r : String) : Bool :=
  refs.any fun x => x.profile == p && x.rel_path == r

/-- Key lookup in the association-list index (`HashMap::get` /
`HashMap::get_mut` on the digest key). -/
def lookupRefs (idx : BlobIndex) (d : Digest) : Option RefList :=
  match idx with
  | [] => none
  | e :: rest => if e.1 = d then some e.2 else lookupRefs rest d

/-- `BlobCache::add_ref`: insert `(profile, rel_path)` into the digest's
reference list if absent (`entry(..).or_insert_with(Vec::new)` followed by a
duplicate check and `push`).  The returned index is the persisted state: when
the reference already exists nothing is saved, so the index is unchanged. -/
def add_ref (idx : BlobIndex) (h : Digest) (p r : String) : BlobIndex :=
  match lookupRefs idx h with
  | some refs =>
    if refsContain refs p r then idx
    else idx.map fun e => if e.1 = h then (e.1, e.2 ++ [⟨p, r⟩]) else e
  | none => idx ++ [(h, [⟨p, r⟩])]

/-- `BlobCache::remove_ref`: retain all references other than
`(profile, rel_path)`; if the digest's list becomes empty remove the entry and
report `true` (GC-eligible); a missing digest also reports `true`. -/
def remove_ref (idx : BlobIndex) (h : Digest) (p r : String) : BlobIndex × Bool :=
  match lookupRefs idx h with
  | some refs =>
    let refs' := refs.filter fun x => !(x.profile == p && x.rel_path == r)
    if refs'.isEmpty then (idx.filter fun e => decide (e.1 ≠ h), true)
    else ((idx.map fun e => if e.1 = h then (e.1, refs') else e), false)
  | none => (idx, true)

/-- `BlobCache::find_blob_hash_for_file`: linear scan of the index for the
first digest whose reference list contains `(profile, rel_path)`. -/
def find_blob_hash_for_file (idx : BlobIndex) (p r : String) : Option Digest :=
  match idx with
  | [] => none
  | (h, refs) :: rest =>
    if refsContain refs p r then some h else find_blob_hash_for_file rest p r

/-- The scanning loop of `BlobCache::remove_existing_ref`: every entry's list
is filtered of `(profile, rel_path)`; `found` records the digest of the last
entry (in iteration order) that shrank; `to_remove` collects, in iteration
order, the digests whose lists shrank to empty. -/
def replace_scan (p r : String) : BlobIndex → BlobIndex × Option Digest × List Digest
  | [] => ([], none, [])
  | (h, refs) :: rest =>
    let refs' := refs.filter fun x => !(x.profile == p && x.rel_path == r)
    let rec' := replace_scan p r rest
    let found := match rec'.2.1 with
      | some f => some f
      | none => if refs'.length < refs.length then some h else none
    let toRemove := if refs'.length < refs.length ∧ refs' = [] then h :: rec'.2.2 else rec'.2.2
    ((h, refs') :: rec'.1, found, toRemove)

/-- Cache state touched by `remove_existing_ref`: the persisted index and the
blob files on disk. -/
structure CacheState where
  index : BlobIndex
  fs : FS

/-- `BlobCache::remove_existing_ref` (the spec's `replace_ref`): remove any
reference held by `(profile, rel_path)`; prune entries whose list became
empty and delete their blob files; return the old digest if one was found. -/
def remove_existing_ref (cache_dir : FsPath) (st : CacheState) (p r : String) :
    CacheState × Option Digest :=
  let scan := replace_scan p r st.index
  let idx2 := scan.2.2.foldl (fun i h => i.filter fun e => decide (e.1 ≠ h)) scan.1
  let fs2 := scan.2.2.foldl (fun f h => FS.remove f (get_blob_path cache_dir h)) st.fs
  (⟨idx2, fs2⟩, scan.2.1)

/-- `BlobCache::garbage_collect_blob`: delete the blob file when the digest
has no index entry; report whether a file was deleted. -/
def garbage_collect_blob (cache_dir : FsPath) (st : CacheState) (h : Digest) :
    CacheState × Bool :=
  match lookupRefs st.index h with
  | some _ => (st, false)
  | none =>
    match st.fs (get_blob_path cache_dir h) with
    | some _ => (⟨st.index, FS.remove st.fs (get_blob_path cache_dir h)⟩, true)
    | none => (st, false)

/-! ### Workspace normalizer model (`workspace_watcher.rs`) -/

/-- Environment of the normalizer: the BLAKE3 hash, the platform file-identity
shim (`are_files_hardlinked`: volume serial + file index on Windows, `false`
on other platforms), a coarse per-path I/O success flag for the steps after
the existence check, and the cache directory. -/
structure NormEnv where
  hash : Content → Digest
  hardlinked : FsPath → FsPath → Bool
  io_ok : FsPath → Bool
  cache_dir : FsPath

/-- State touched by the normalizer: the workspace/blob filesystem and the
persisted blob index. -/
structure WatchState where
  fs : FS
  index : BlobIndex

/-- `WorkspaceWatcher::normalize_file`.  Returns the new state and whether the
call returned `Ok`.  A path that no longer exists is skipped with `Ok(())`.
If the blob for the file's current hash exists and the file is already
hardlinked to it, only the reference is refreshed.  Otherwise the blob is
ensured, the reference added, and the workspace file replaced by a hardlink
to the blob (same content).  The relative-path string `rel` is the rendering
of `file_path.strip_prefix(workspace_path)`, taken here as an input. -/
def normalize_file (env : NormEnv) (profile : String) (file_path : FsPath) (rel : String)
    (st : WatchState) : WatchState × Bool :=
  match st.fs file_path with
  | none => (st, true)
  | some c =>
    if env.io_ok file_path then
      let h := env.hash c
      let bp := get_blob_path env.cache_dir h
      if (st.fs bp).isSome && env.hardlinked file_path bp then
        (⟨st.fs, add_ref st.index h profile rel⟩, true)
      else
        let fs1 := if (st.fs bp).isSome then st.fs else FS.write st.fs bp c
        let idx1 := add_ref st.index h profile rel
        let fs2 := FS.write (FS.remove fs1 file_path) file_path c
        (⟨fs2, idx1⟩, true)
    else (st, false)

/-- `WorkspaceWatcher::find_blob_by_reference`: linear scan for the digest
referenced by `(profile, rel_path)` (same search as
`find_blob_hash_for_file`). -/
def find_blob_by_reference (idx : BlobIndex) (p rel : String) : Option Digest :=
  find_blob_hash_for_file idx p rel

/-- `WorkspaceWatcher::handle_file_deletion`: look up the blob referenced by
`(profile, rel)` and remove that reference; the GC-eligibility result is only
logged, and all errors are swallowed (`Ok(())` in every path). -/
def handle_file_deletion (profile : String) (rel : String) (st : WatchState) : WatchState :=
  match find_blob_by_reference st.index profile rel with
  | some h => ⟨st.fs, (remove_ref st.index h profile rel).1⟩
  | none => st

/-- `FileChangeKind` of the debounced watcher events. -/
inductive FileChangeKind where
  | created
  | modified
  | deleted
  | renamed
deriving DecidableEq

/-- A debounced `FileChangeEvent` (the `timestamp` field is unused by the
flush processing and omitted).  `rel` is the workspace-relative rendering of
`path`, taken as an input. -/
structure FileChangeEvent where
  path : FsPath
  rel : String
  kind : FileChangeKind

/-- `WorkspaceWatcher::process_file_changes`: process the batch in list
order (one linearization of the debounce map's unspecified value order);
Created/Modified/Renamed events are normalized and count one normalization
when the call returns `Ok`; Deleted events run deletion handling and never
count. -/
def process_file_changes (env : NormEnv) (profile : String)
    (changes : List FileChangeEvent) (st : WatchState) : WatchState × Nat :=
  changes.foldl
    (fun acc ch =>
      match ch.kind with
      | .deleted => (handle_file_deletion profile ch.rel acc.1, acc.2)
      | _ =>
        let res := normalize_file env profile ch.path ch.rel acc.1
        (res.1, if res.2 then acc.2 + 1 else acc.2))
    (st, 0)

/-- The debounce handler's notification condition: a single
`workspace-normalized` toast is emitted exactly when the flush produced a
non-zero `normalized_count`. -/
def flush_emits_toast (env : NormEnv) (profile : String)
    (changes : List FileChangeEvent) (st : WatchState) : Bool :=
  (process_file_changes env profile changes st).2 != 0

/-! ### Runtime planner model (`runtime_planner.rs`) -/

/-- The virtual-node source tags as matched by the planner
(`runtime_planner.rs` matches `Base`, `Workspace` and `Override` on
`node.source`; this is the planner's view of the overlay enum). -/
inductive PlannerNodeSource where
  | Base
  | Workspace
  | Override
deriving DecidableEq

/-- The fields of `VirtualNode` consumed by the planner's traversal: name,
directory flag, size, source and optional children (directories built with
`include_children == false` carry `None`). -/
inductive VNode where
  | mk (name : String) (is_directory : Bool) (size : Option Nat)
       (source : PlannerNodeSource) (children : Option (List VNode))

/-- `RuntimeSource`: where a planned file comes from. -/
inductive RuntimeSource where
  | Base
  | Blob (hash : String)
deriving DecidableEq

/-- `RuntimePlanEntry`. -/
structure RuntimePlanEntry where
  rel_path : String
  source : RuntimeSource
  size : Nat
  has_base : Bool
  is_override : Bool
deriving DecidableEq

/-- `RuntimePlan`. -/
structure RuntimePlan where
  profile_name : String
  generated_at : String
  total_files : Nat
  total_size : Nat
  base_files : Nat
  blob_files : Nat
  entries : List RuntimePlanEntry
deriving DecidableEq

/-- The mutable accumulators threaded through `traverse_and_plan`
(`entries`, `total_size`, `base_files`, `blob_files`). -/
structure PlanAcc where
  entries : List RuntimePlanEntry
  total_size : Nat
  base_files : Nat
  blob_files : Nat
deriving DecidableEq

mutual

/-- `RuntimePlanner::traverse_and_plan`: directories recurse into their
children (with the `child_path` computation of the source, including the
`"Game Root"` special case); files push one entry, add their size to
`total_size` and bump exactly one of the two counters.  `getHash` models
`get_blob_hash_for_file` for the fixed profile (`none` = error, which aborts
the whole computation as `?` does). -/
def traverse_and_plan (getHash : String → Option String) :
    VNode → String → PlanAcc → Option PlanAcc
  | VNode.mk name is_directory size source children, current_path, acc =>
    if is_directory then
      match children with
      | none => some acc
      | some cs =>
        let child_path :=
          if current_path = "" ∧ name = ("Game Root") then ("")
          else if current_path = "" then name
          else current_path ++ "/" ++ name
        traverse_children getHash cs child_path acc
    else
      let rel_path := if current_path = "" then name else current_path ++ "/" ++ name
      let sz := size.getD 0
      match source with
      | PlannerNodeSource.Base =>
        some ⟨acc.entries ++ [⟨rel_path, RuntimeSource.Base, sz, true, false⟩],
              acc.total_size + sz, acc.base_files + 1, acc.blob_files⟩
      | PlannerNodeSource.Workspace =>
        (getHash rel_path).map fun h =>
          ⟨acc.entries ++ [⟨rel_path, RuntimeSource.Blob h, sz, false, false⟩],
           acc.total_size + sz, acc.base_files, acc.blob_files + 1⟩
      | PlannerNodeSource.Override =>
        (getHash rel_path).map fun h =>
          ⟨acc.entries ++ [⟨rel_path, RuntimeSource.Blob h, sz, true, true⟩],
           acc.total_size + sz, acc.base_files, acc.blob_files + 1⟩

/-- The `for child in children` loop of `traverse_and_plan`, propagating the
first error as `?` does. -/
def traverse_children (getHash : String → Option String) :
    List VNode → String → PlanAcc → Option PlanAcc
  | [], _, acc => some acc
  | c :: cs, path, acc =>
    match traverse_and_plan getHash c path acc with
    | none => none
    | some acc' => traverse_children getHash cs path acc'

end

/-- `RuntimePlanner::compute_plan`: traverse the virtual tree from the root
with empty accumulators and aggregate the totals (`total_files` is
`entries.len()`).  `tree` is `none` when the profile does not exist or the
virtual tree cannot be built. -/
def compute_plan (getHash : String → Option String) (profile_name generated_at : String)
    (tree : Option VNode) : Option RuntimePlan :=
  match tree with
  | none => none
  | some root =>
    (traverse_and_plan getHash root ("") ⟨[], 0, 0, 0⟩).map fun acc =>
      ⟨profile_name, generated_at, acc.entries.length, acc.total_size,
       acc.base_files, acc.blob_files, acc.entries⟩

/-- Consistency of the planner accumulators: as many entries as the two
counters combined, and the entry sizes summing to `total_size`. -/
def PlanAccGood (acc : PlanAcc) : Prop :=
  acc.entries.length = acc.base_files + acc.blob_files ∧
  (acc.entries.map RuntimePlanEntry.size).sum = acc.total_size

/-! ### Runtime builder model (`runtime_builder.rs`) -/

/-- `matches!(entry.source, RuntimeSource::Base)`. -/
def RuntimeSource.isBase : RuntimeSource → Bool
  | RuntimeSource.Base => true
  | RuntimeSource.Blob _ => false

/-- `matches!(entry.source, RuntimeSource::Blob(_))`. -/
def RuntimeSource.isBlob : RuntimeSource → Bool
  | RuntimeSource.Base => false
  | RuntimeSource.Blob _ => true

/-- The runtimes-directory state observed by a build: the contents of
`<profile>-latest` (`none` when the directory does not exist) and this
build's staging directory `<profile>-<ts>-tmp` (the relative paths hardlinked
into it so far). -/
structure RuntimesState where
  latest : Option (List String)
  staging : Option (List String)
deriving DecidableEq

/-- Failure injection for one `build_runtime` call: preflight outcome, the
`compute_plan` result (`none` = error), staging-directory creation, and
per-path hardlink success for the base and blob pools.  The finalize step
(delete `-latest`, rename staging) and the plan save are modelled as
succeeding: claim C1 concerns failures in the five phases up to and including
the blob overlay. -/
structure BuildEnv where
  preflight_ok : Bool
  plan_result : Option RuntimePlan
  create_temp_ok : Bool
  base_link_ok : String → Bool
  blob_link_ok : String → Bool

/-- Outcome of a build, identifying the phase that failed. -/
inductive BuildOutcome where
  | Completed
  | PreflightFailed
  | PlanFailed
  | CreateTempFailed
  | LinkBaseFailed
  | OverlayFailed
deriving DecidableEq

/-- One hardlink pool (`par_iter().try_for_each` over the base or blob
entries), as its sequential linearization: process entries in order and stop
at the first failing hardlink, leaving the staged prefix in place. -/
def link_entries (ok : String → Bool) : List RuntimePlanEntry → List String → Bool × List String
  | [], staged => (true, staged)
  | e :: es, staged =>
    if ok e.rel_path then link_entries ok es (staged ++ [e.rel_path]) else (false, staged)

/-- `RuntimeBuilder::build_runtime`: preflight, plan computation, staging
creation, the base pool, the blob pool, then `finalize_runtime` (delete the
existing `-latest`, rename staging into place).  Every failure path returns
before `finalize_runtime` is reached, leaving `latest` untouched and the
staging directory (if it was created) in place. -/
def build_runtime (env : BuildEnv) (st : RuntimesState) : BuildOutcome × RuntimesState :=
  if !env.preflight_ok then (BuildOutcome.PreflightFailed, st)
  else
    match env.plan_result with
    | none => (BuildOutcome.PlanFailed, st)
    | some plan =>
      if !env.create_temp_ok then (BuildOutcome.CreateTempFailed, st)
      else
        let base_entries := plan.entries.filter fun e => RuntimeSource.isBase e.source
        let blob_entries := plan.entries.filter fun e => RuntimeSource.isBlob e.source
        let r1 := link_entries env.base_link_ok base_entries []
        if !r1.1 then (BuildOutcome.LinkBaseFailed, ⟨st.latest, some r1.2⟩)
        else
          let r2 := link_entries env.blob_link_ok blob_entries r1.2
          if !r2.1 then (BuildOutcome.OverlayFailed, ⟨st.latest, some r2.2⟩)
          else (BuildOutcome.Completed, ⟨some r2.2, none⟩)

/-- `RuntimeBuilder::cleanup_temp_runtimes`: remove every directory whose
name ends in `-tmp` from the runtimes directory listing. -/
def cleanup_temp_runtimes (dirs : List String) : List String :=
  dirs.filter fun name => !(String.endsWith name ("-tmp"))

/-! ### Overlay view model (`virtual_fs.rs`) -/

/-- `VirtualNodeSource` as defined in `virtual_fs.rs` (this version of the
overlay enum includes the tombstone variant). -/
inductive VirtualNodeSource where
  | Base
  | Workspace
  | WorkspaceOverride
  | Tombstone
deriving DecidableEq

/-- Existence-level model of one profile's overlay: the list of existing
relative paths (files and directories) of the base installation and of the
workspace, and the cached tombstone paths.  Paths are component lists
relative to the game root. -/
structure VfsModel where
  base : List (List String)
  workspace : List (List String)
  tombstones : List (List String)

/-- `VirtualFileSystem::is_tombstoned`: the exact path or any of its
ancestors (`Path::ancestors` yields the path itself, every parent and the
root) is tombstoned — i.e. some tombstone is a prefix of the path. -/
def is_tombstoned (m : VfsModel) (p : List String) : Bool :=
  m.tombstones.any fun t => t.isPrefixOf p

/-- Path existence in a listing (`Path::exists`). -/
def path_exists_in (paths : List (List String)) (p : List String) : Bool :=
  paths.contains p

/-- Directory test in the existence model (`fs::metadata(..).is_dir()`):
some strictly longer existing path extends `p`. -/
def is_dir_in (paths : List (List String)) (p : List String) : Bool :=
  paths.any fun q => decide (p ≠ q) && p.isPrefixOf q

/-- The fields of `VirtualNode` relevant to the claims: source tag,
directory flag (from the primary path's metadata) and writability. -/
structure VNodeInfo where
  source : VirtualNodeSource
  is_directory : Bool
  writable : Bool
deriving DecidableEq

/-- `VirtualFileSystem::build_virtual_node` (child enumeration aside): a
tombstoned path with no workspace counterpart is an error (deleted);
otherwise workspace∧base → `WorkspaceOverride` (writable), workspace only →
`Workspace` (writable), base only and not tombstoned → `Base` (read-only);
otherwise the path does not exist. -/
def build_virtual_node (m : VfsModel) (p : List String) : Except String VNodeInfo :=
  let base_exists := path_exists_in m.base p
  let workspace_exists := path_exists_in m.workspace p
  if is_tombstoned m p && !workspace_exists then Except.error ("tombstoned")
  else if workspace_exists && base_exists then
    Except.ok ⟨VirtualNodeSource.WorkspaceOverride, is_dir_in m.workspace p, true⟩
  else if workspace_exists then
    Except.ok ⟨VirtualNodeSource.Workspace, is_dir_in m.workspace p, true⟩
  else if base_exists && !(is_tombstoned m p) then
    Except.ok ⟨VirtualNodeSource.Base, is_dir_in m.base p, false⟩
  else Except.error ("does not exist")

/-- Names of the immediate children of `dir` in a path listing
(`fs::read_dir`): the `n` with `dir ++ [n]` in the listing. -/
def dir_child_names (paths : List (List String)) (dir : List String) : List String :=
  paths.filterMap fun q =>
    if q.take dir.length = dir then
      match q.drop dir.length with
      | [n] => some n
      | _ => none
    else none

/-- The workspace loop of `build_virtual_children`: skip the exact reserved
file name `.deltaruntime_tombstones.json`, skip tombstoned child paths, push
the children whose node builds. -/
def workspace_pass (m : VfsModel) (dir : List String) : List (String × VNodeInfo) :=
  (dir_child_names m.workspace dir).filterMap fun n =>
    if n == ".deltaruntime_tombstones.json" then none
    else
      if is_tombstoned m (dir ++ [n]) then none
      else
        match build_virtual_node m (dir ++ [n]) with
        | Except.ok info => some (n, info)
        | Except.error _ => none

/-- The base loop of `build_virtual_children`: skip names already pushed by
the workspace pass, skip tombstoned child paths, push the children whose
node builds. -/
def base_pass (m : VfsModel) (dir : List String) (seen : List String) :
    List (String × VNodeInfo) :=
  (dir_child_names m.base dir).filterMap fun n =>
    if seen.contains n then none
    else
      if is_tombstoned m (dir ++ [n]) then none
      else
        match build_virtual_node m (dir ++ [n]) with
        | Except.ok info => some (n, info)
        | Except.error _ => none

/-- The child ordering of `build_virtual_children`'s `sort_by`: directories
before files, then case-insensitive name (Rust `to_lowercase` modelled as
per-`Char` lowercasing).  `child_le a b` holds when the comparator does not
return `Greater` for `(a, b)`. -/
def child_le (a b : String × VNodeInfo) : Bool :=
  if a.2.is_directory && !(b.2.is_directory) then true
  else if !(a.2.is_directory) && b.2.is_directory then false
  else decide ((a.1.map Char.toLower) ≤ (b.1.map Char.toLower))

/-- Stable insertion step for the child sort. -/
def insert_child (a : String × VNodeInfo) : List (String × VNodeInfo) →
    List (String × VNodeInfo)
  | [] => [a]
  | b :: l => if child_le a b then a :: b :: l else b :: insert_child a l

/-- The `children.sort_by(..)` stable sort, as insertion sort with
`child_le`. -/
def sort_children : List (String × VNodeInfo) → List (String × VNodeInfo)
  | [] => []
  | a :: l => insert_child a (sort_children l)

/-- `VirtualFileSystem::build_virtual_children`: workspace entries first
(recording the pushed names), then base entries whose name was not already
seen, then the directories-first case-insensitive sort. -/
def build_virtual_children (m : VfsModel) (dir : List String) :
    List (String × VNodeInfo) :=
  let ws := workspace_pass m dir
  let bs := base_pass m dir (ws.map Prod.fst)
  sort_children (ws ++ bs)

/-- `VirtualFileSystem::create_tombstone`: record a tombstone for the path
and persist (the tombstone hides the base path from the virtual view via
`is_tombstoned`). -/
def create_tombstone (m : VfsModel) (p : List String) : VfsModel :=
  ⟨m.base, m.workspace, m.tombstones ++ [p]⟩

/-! ### Profile manager model (`profiles.rs`) -/

/-- `ProfileMetadata` (timestamps as abstract numbers). -/
structure ProfileMetadata where
  name : String
  created_at : Nat
  last_used : Nat
  description : Option String
  schema_version : Nat
deriving DecidableEq

/-- Environment for loading one profile directory: directory existence,
presence of `profile.json`, the result of reading it (`none` = I/O error),
the `serde_json::from_str` parse as a parameter function (`none` = parse
error), and success of the `create_dir_all` calls for `workspace` and
`saves`. -/
structure ProfileDirEnv where
  dir_exists : Bool
  metadata_exists : Bool
  read_result : Option String
  parse : String → Option ProfileMetadata
  create_dirs_ok : Bool

/-- `Profile::load`: error when `profile.json` is missing, unreadable or
unparsable, or when the workspace/saves directories cannot be created;
otherwise the parsed metadata. -/
def Profile.load (env : ProfileDirEnv) : Except String ProfileMetadata :=
  if !env.metadata_exists then Except.error ("Profile metadata not found")
  else
    match env.read_result with
    | none => Except.error ("Failed to read profile metadata")
    | some content =>
      match env.parse content with
      | none => Except.error ("Failed to parse profile metadata")
      | some metadata =>
        if !env.create_dirs_ok then Except.error ("Failed to create directory")
        else Except.ok metadata

/-- `ProfileManager::get_profile`: `Ok(None)` when the profile directory
does not exist; otherwise `Profile::load`, with any load error mapped to
`Ok(None)`. -/
def get_profile (env : ProfileDirEnv) : Except String (Option ProfileMetadata) :=
  if !env.dir_exists then Except.ok none
  else
    match Profile.load env with
    | Except.ok profile => Except.ok (some profile)
    | Except.error _ => Except.ok none

/-! ### Index invariant of the specification -/

/-- Well-formedness of the persisted index, as documented in the spec: unique
digest keys (a `HashMap` guarantee) and no empty reference sets (empty sets
are pruned by every mutator). -/
def IndexWF (idx : BlobIndex) : Prop :=
  (idx.map Prod.fst).Nodup ∧ ∀ e ∈ idx, e.2 ≠ []

/-- The spec's `BlobIndex` invariant at one pair: `(p, r)` appears in at most
one digest's reference set. -/
def pair_unique (idx : BlobIndex) (p r : String) : Prop :=
  ∀ d1 refs1 d2 refs2, (d1, refs1) ∈ idx → (d2, refs2) ∈ idx →
    refsContain refs1 p r = true → refsContain refs2 p r = true → d1 = d2

/-- The full invariant: every pair appears in at most one digest's set. -/
def IndexPairUnique (idx : BlobIndex) : Prop :=
  ∀ p r, pair_unique idx p r

/-! ### C3: `ensure_blob` is idempotent and content-addressed -/

/-- C3: `ensure_blob` is content-addressed and idempotent.  (a) Two source
files with byte-identical content yield the same digest and the same blob
path; (b) when the blob file already exists, `ensure_blob` returns it with the
filesystem unchanged (no copy); (c) after a successful `ensure_blob`, running
it again on any file with the same content returns the same blob and leaves
the filesystem unchanged. -/
theorem ensure_blob_content_addressed (hash : Content → Digest) (cache_dir : FsPath)
    (fs : FS) (p1 p2 : FsPath) (c : Content)
    (h1 : fs p1 = some c) (h2 : fs p2 = some c) :
    ((ensure_blob hash cache_dir fs p1).map Prod.fst
        = (ensure_blob hash cache_dir fs p2).map Prod.fst) ∧
    (∀ b, fs (get_blob_path cache_dir (hash c)) = some b →
      ensure_blob hash cache_dir fs p1
        = some (⟨hash c, get_blob_path cache_dir (hash c)⟩, fs)) ∧
    (∀ r1 fs1, ensure_blob hash cache_dir fs p1 = some (r1, fs1) →
      ensure_blob hash cache_dir fs1 p2 = some (r1, fs1)) := by
  refine ⟨?_, ?_, ?_⟩
  · unfold ensure_blob
    rw [h1, h2]
  · intro b hb
    unfold ensure_blob
    rw [h1]
    simp only [hb]
  · intro r1 fs1 hres
    unfold ensure_blob at hres ⊢
    rw [h1] at hres
    cases hfs : fs (get_blob_path cache_dir (hash c)) with
    | some b =>
      simp only [hfs] at hres
      cases hres
      rw [h2]
      simp only [hfs]
    | none =>
      simp only [hfs] at hres
      cases hres
      have hp2 : FS.write fs (get_blob_path cache_dir (hash c)) c p2 = some c := by
        by_cases hbp : p2 = get_blob_path cache_dir (hash c)
        · simp [FS.write, hbp]
        · simp only [FS.write, if_neg hbp, h2]
      rw [hp2]
      have hwbp : FS.write fs (get_blob_path cache_dir (hash c)) c
          (get_blob_path cache_dir (hash c)) = some c := by
        simp [FS.write]
      simp only [hwbp]

/-- Witness for C3 at a concrete filesystem holding two files with identical
content. -/
theorem ensure_blob_content_addressed_witness :
    ((fun q => if q = ["f1"] then some [7] else if q = ["f2"] then some [7] else none) :
        FS) ["f1"] = some [7] ∧
    ((ensure_blob (fun _ => "aa") ["cache"]
        (fun q => if q = ["f1"] then some [7] else if q = ["f2"] then some [7] else none)
        ["f1"]).map Prod.fst
      = (ensure_blob (fun _ => "aa") ["cache"]
        (fun q => if q = ["f1"] then some [7] else if q = ["f2"] then some [7] else none)
        ["f2"]).map Prod.fst) :=
  ⟨by decide,
   (ensure_blob_content_addressed (fun _ => "aa") ["cache"]
      (fun q => if q = ["f1"] then some [7] else if q = ["f2"] then some [7] else none)
      ["f1"] ["f2"] [7] (by decide) (by decide)).1⟩

/-! ### Association-list helper lemmas for the index model -/

theorem lookup_eq_none_iff (idx : BlobIndex) (d : Digest) :
    lookupRefs idx d = none ↔ ∀ e ∈ idx, e.1 ≠ d := by
  induction idx with
  | nil => simp [lookupRefs]
  | cons e rest ih =>
    simp only [lookupRefs, List.mem_cons]
    by_cases h : e.1 = d
    · simp [h]
    · rw [if_neg h, ih]
      constructor
      · intro hall f hf
        rcases hf with hf | hf
        · subst hf; exact h
        · exact hall f hf
      · intro hall f hf; exact hall f (Or.inr hf)

theorem lookup_append_of_none (idx l : BlobIndex) (d : Digest)
    (h : lookupRefs idx d = none) : lookupRefs (idx ++ l) d = lookupRefs l d := by
  induction idx with
  | nil => simp
  | cons e rest ih =>
    simp only [lookupRefs, List.cons_append] at h ⊢
    by_cases hb : e.1 = d
    · simp [hb] at h
    · rw [if_neg hb] at h ⊢
      exact ih h

theorem lookup_map_update (idx : BlobIndex) (d : Digest) (f : RefList → RefList) :
    lookupRefs (idx.map fun e => if e.1 = d then (e.1, f e.2) else e) d
      = (lookupRefs idx d).map f := by
  induction idx with
  | nil => simp [lookupRefs]
  | cons e rest ih =>
    simp only [List.map_cons]
    by_cases hb : e.1 = d
    · simp [lookupRefs, hb]
    · simp only [if_neg hb, lookupRefs, if_neg hb]
      exact ih

theorem mem_of_lookup_eq_some (idx : BlobIndex) (d : Digest) (v : RefList)
    (h : lookupRefs idx d = some v) : (d, v) ∈ idx := by
  induction idx with
  | nil => simp [lookupRefs] at h
  | cons e rest ih =>
    obtain ⟨k, w⟩ := e
    simp only [lookupRefs] at h
    by_cases hb : k = d
    · subst hb
      simp only [if_pos rfl] at h
      cases h
      exact List.mem_cons_self _ _
    · rw [if_neg hb] at h
      exact List.mem_cons_of_mem _ (ih h)

theorem value_unique_of_nodup (idx : BlobIndex) (d : Digest) (v : RefList)
    (hnd : (idx.map Prod.fst).Nodup) (hmem : (d, v) ∈ idx) :
    ∀ e ∈ idx, e.1 = d → e.2 = v := by
  induction idx with
  | nil => simp at hmem
  | cons e₀ rest ih =>
    simp only [List.map_cons, List.nodup_cons] at hnd
    intro e he hkey
    rcases List.mem_cons.mp hmem with hm | hm
    · rcases List.mem_cons.mp he with he' | he'
      · rw [he', ← hm]
      · exfalso
        apply hnd.1
        have h1 : e.1 ∈ rest.map Prod.fst := List.mem_map_of_mem Prod.fst he'
        have h2 : e₀.1 = d := by rw [← hm]
        rw [h2, ← hkey]
        exact h1
    · rcases List.mem_cons.mp he with he' | he'
      · exfalso
        apply hnd.1
        have h1 : ((d, v) : Digest × RefList).1 ∈ rest.map Prod.fst :=
          List.mem_map_of_mem Prod.fst hm
        rw [← he', hkey]
        exact h1
      · exact ih hnd.2 hm e he' hkey

theorem refsContain_false_filter (refs : RefList) (p r : String)
    (h : refsContain refs p r = false) :
    (refs.filter fun x => !(x.profile == p && x.rel_path == r)) = refs := by
  apply List.filter_eq_self.mpr
  intro x hx
  unfold refsContain at h
  have h' := List.any_eq_false.mp h x hx
  have h2 : (x.profile == p && x.rel_path == r) = false := Bool.eq_false_iff.mpr h'
  simp [h2]

theorem filter_key_eq_self (idx : BlobIndex) (d : Digest)
    (h : ∀ e ∈ idx, e.1 ≠ d) :
    (idx.filter fun e => decide (e.1 ≠ d)) = idx := by
  apply List.filter_eq_self.mpr
  intro e he
  simpa using h e he

/-! ### C6: `add_ref` then `remove_ref` as a round trip -/

/-- C6 counterexample: when `(d, p, r)` is already in the index,
`add_ref` is a no-op but `remove_ref` removes the pre-existing reference, so
the pair of calls does not return the index to its prior state. -/
theorem add_ref_remove_ref_not_roundtrip_cex :
    (remove_ref (add_ref [("d", [⟨"p", "r"⟩])] "d" "p" "r") "d" "p" "r").1 = [] ∧
    ([("d", [⟨"p", "r"⟩])] : BlobIndex) ≠ [] := by
  constructor
  · rfl
  · decide

/-- C6 amended: for a well-formed index (unique keys, no empty reference
sets) in which `(p, r)` is not already in digest `d`'s reference set,
`add_ref d p r` followed by `remove_ref d p r` returns the index to exactly
its prior state. -/
theorem add_ref_remove_ref_roundtrip (idx : BlobIndex) (d p r : String)
    (hwf : IndexWF idx)
    (habs : ∀ refs, lookupRefs idx d = some refs → refsContain refs p r = false) :
    (remove_ref (add_ref idx d p r) d p r).1 = idx := by
  cases hl : lookupRefs idx d with
  | none =>
    have hadd : add_ref idx d p r = idx ++ [(d, [⟨p, r⟩])] := by
      unfold add_ref; rw [hl]
    rw [hadd]
    have hlook : lookupRefs ([(d, [(⟨p, r⟩ : BlobReference)])] : BlobIndex) d
        = some [⟨p, r⟩] := by simp [lookupRefs]
    have hfilt : (([(⟨p, r⟩ : BlobReference)]).filter
        fun x => !(x.profile == p && x.rel_path == r)) = [] := by simp
    have hra : remove_ref (idx ++ [(d, [⟨p, r⟩])]) d p r
        = ((idx ++ [(d, [(⟨p, r⟩ : BlobReference)])]).filter fun e => decide (e.1 ≠ d), true) := by
      unfold remove_ref
      rw [lookup_append_of_none idx _ d hl, hlook]
      simp [hfilt]
    rw [hra]
    have h1 : (idx.filter fun e => decide (e.1 ≠ d)) = idx :=
      filter_key_eq_self idx d ((lookup_eq_none_iff idx d).mp hl)
    have h2 : (([((d : Digest), [(⟨p, r⟩ : BlobReference)])] : BlobIndex).filter
        fun e => decide (e.1 ≠ d)) = [] := by simp
    simp only [List.filter_append, h1, h2, List.append_nil]
  | some refs =>
    have hcon : refsContain refs p r = false := habs refs hl
    have hadd : add_ref idx d p r
        = idx.map fun e => if e.1 = d then (e.1, e.2 ++ [⟨p, r⟩]) else e := by
      unfold add_ref
      rw [hl]
      simp [hcon]
    rw [hadd]
    unfold remove_ref
    have hlook : lookupRefs
        (idx.map fun e => if e.1 = d then (e.1, e.2 ++ [(⟨p, r⟩ : BlobReference)]) else e) d
        = some (refs ++ [(⟨p, r⟩ : BlobReference)]) := by
      have h0 := lookup_map_update idx d (fun v => v ++ [(⟨p, r⟩ : BlobReference)])
      rw [hl] at h0
      exact h0
    rw [hlook]
    have hfilt : ((refs ++ [(⟨p, r⟩ : BlobReference)]).filter
        fun x => !(x.profile == p && x.rel_path == r)) = refs := by
      rw [List.filter_append, refsContain_false_filter refs p r hcon]
      simp
    simp only [hfilt]
    have hne : refs ≠ [] := hwf.2 (d, refs) (mem_of_lookup_eq_some idx d refs hl)
    rw [if_neg (by simpa [List.isEmpty_iff] using hne)]
    simp only [List.map_map]
    have hval := value_unique_of_nodup idx d refs hwf.1 (mem_of_lookup_eq_some idx d refs hl)
    refine Eq.trans (List.map_congr_left ?_) (List.map_id idx)
    intro e he
    by_cases hk : e.1 = d
    · have hv : e.2 = refs := hval e he hk
      simp only [Function.comp_apply, if_pos hk, id_eq, hfilt]
      cases e
      simp_all
    · simp only [Function.comp_apply, if_neg hk, id_eq]

/-- Witness for the amended C6 at a concrete index. -/
theorem add_ref_remove_ref_roundtrip_witness :
    IndexWF [("d0", [⟨"a", "b"⟩])] ∧
    (remove_ref (add_ref [("d0", [⟨"a", "b"⟩])] "d" "p" "r") "d" "p" "r").1
      = [("d0", [⟨"a", "b"⟩])] :=
  ⟨⟨by decide, by decide⟩,
   add_ref_remove_ref_roundtrip [("d0", [⟨"a", "b"⟩])] "d" "p" "r"
     ⟨by decide, by decide⟩ (fun refs h => by simp [lookupRefs] at h)⟩

/-! ### Lemmas about `replace_scan` and the folds in `remove_existing_ref` -/

theorem refsContain_filter_false (refs : RefList) (p r : String) :
    refsContain (refs.filter fun x => !(x.profile == p && x.rel_path == r)) p r = false := by
  apply List.any_eq_false.mpr
  intro x hx
  have hkeep := List.of_mem_filter hx
  intro hc
  rw [hc] at hkeep
  simp at hkeep

theorem shrank_iff (refs : RefList) (p r : String) :
    ((refs.filter fun x => !(x.profile == p && x.rel_path == r)).length < refs.length) ↔
      refsContain refs p r = true := by
  induction refs with
  | nil => simp [refsContain]
  | cons x xs ih =>
    by_cases hm : (x.profile = p ∧ x.rel_path = r)
    · have hb : (x.profile == p && x.rel_path == r) = true := by simp [hm.1, hm.2]
      have hfc : ((x :: xs).filter fun x => !(x.profile == p && x.rel_path == r))
          = xs.filter fun x => !(x.profile == p && x.rel_path == r) := by
        simp only [List.filter_cons, hb, Bool.not_true, Bool.false_eq_true, if_false]
      rw [hfc]
      simp only [List.length_cons]
      constructor
      · intro _
        simp only [refsContain, List.any_cons, hb, Bool.true_or]
      · intro _
        exact Nat.lt_succ_of_le (List.length_filter_le _ xs)
    · have hb : (x.profile == p && x.rel_path == r) = false := by
        apply Bool.eq_false_iff.mpr
        intro hc
        exact hm (by simpa using hc)
      have hfc : ((x :: xs).filter fun x => !(x.profile == p && x.rel_path == r))
          = x :: xs.filter fun x => !(x.profile == p && x.rel_path == r) := by
        simp only [List.filter_cons, hb, Bool.not_false, if_true]
      rw [hfc]
      simp only [List.length_cons, Nat.succ_lt_succ_iff]
      rw [ih]
      simp only [refsContain, List.any_cons, hb, Bool.false_or]

theorem replace_scan_fst (p r : String) (idx : BlobIndex) :
    (replace_scan p r idx).1
      = idx.map fun e => (e.1, e.2.filter fun x => !(x.profile == p && x.rel_path == r)) := by
  induction idx with
  | nil => rfl
  | cons e rest ih =>
    simp only [replace_scan, List.map_cons]
    exact congrArg _ ih

theorem replace_scan_found_none_iff (p r : String) (idx : BlobIndex) :
    (replace_scan p r idx).2.1 = none ↔ ∀ e ∈ idx, refsContain e.2 p r = false := by
  induction idx with
  | nil => simp [replace_scan]
  | cons e rest ih =>
    obtain ⟨h, refs⟩ := e
    simp only [replace_scan]
    cases hrf : (replace_scan p r rest).2.1 with
    | some h' =>
      simp only
      constructor
      · intro hc; cases hc
      · intro hall
        exfalso
        have h0 : ∀ f ∈ rest, refsContain f.2 p r = false :=
          fun f hf => hall f (List.mem_cons_of_mem _ hf)
        rw [ih.mpr h0] at hrf
        cases hrf
    | none =>
      simp only
      by_cases hs : ((refs.filter fun x => !(x.profile == p && x.rel_path == r)).length
          < refs.length)
      · rw [if_pos hs]
        constructor
        · intro hc; cases hc
        · intro hall
          exfalso
          have h0 := hall (h, refs) (List.mem_cons_self _ _)
          simp only at h0
          rw [(shrank_iff refs p r).mp hs] at h0
          cases h0
      · rw [if_neg hs]
        constructor
        · intro _ f hf
          rcases List.mem_cons.mp hf with hf | hf
          · subst hf
            simp only
            cases hcc : refsContain refs p r with
            | false => rfl
            | true => exact absurd ((shrank_iff refs p r).mpr hcc) hs
          · exact ih.mp hrf f hf
        · intro _; rfl

theorem replace_scan_found_some_mem (p r : String) (idx : BlobIndex) (h : Digest)
    (hf : (replace_scan p r idx).2.1 = some h) :
    ∃ refs, (h, refs) ∈ idx ∧ refsContain refs p r = true := by
  induction idx with
  | nil => simp [replace_scan] at hf
  | cons e rest ih =>
    obtain ⟨k, refs⟩ := e
    simp only [replace_scan] at hf
    cases hrf : (replace_scan p r rest).2.1 with
    | some h' =>
      rw [hrf] at hf
      simp only at hf
      cases hf
      obtain ⟨refs2, hmem, hcon⟩ := ih hrf
      exact ⟨refs2, List.mem_cons_of_mem _ hmem, hcon⟩
    | none =>
      rw [hrf] at hf
      simp only at hf
      by_cases hs : ((refs.filter fun x => !(x.profile == p && x.rel_path == r)).length
          < refs.length)
      · rw [if_pos hs] at hf
        cases hf
        exact ⟨refs, List.mem_cons_self _ _, (shrank_iff refs p r).mp hs⟩
      · rw [if_neg hs] at hf
        cases hf

theorem replace_scan_toRemove_iff (p r : String) (idx : BlobIndex) (h : Digest) :
    h ∈ (replace_scan p r idx).2.2 ↔
      ∃ refs, (h, refs) ∈ idx ∧ refsContain refs p r = true ∧
        (refs.filter fun x => !(x.profile == p && x.rel_path == r)) = [] := by
  induction idx with
  | nil => simp [replace_scan]
  | cons e rest ih =>
    obtain ⟨k, refs⟩ := e
    simp only [replace_scan]
    by_cases hcond : ((refs.filter fun x => !(x.profile == p && x.rel_path == r)).length
        < refs.length) ∧ (refs.filter fun x => !(x.profile == p && x.rel_path == r)) = []
    · rw [if_pos hcond]
      simp only [List.mem_cons]
      constructor
      · intro hc
        rcases hc with hc | hc
        · subst hc
          exact ⟨refs, Or.inl rfl, (shrank_iff refs p r).mp hcond.1, hcond.2⟩
        · obtain ⟨refs2, hm, hcc, hfe⟩ := ih.mp hc
          exact ⟨refs2, Or.inr hm, hcc, hfe⟩
      · intro hc
        obtain ⟨refs2, hm, hcc, hfe⟩ := hc
        rcases hm with hm | hm
        · left
          exact congrArg Prod.fst hm
        · right
          exact ih.mpr ⟨refs2, hm, hcc, hfe⟩
    · rw [if_neg hcond]
      rw [ih]
      constructor
      · intro hc
        obtain ⟨refs2, hm, hcc, hfe⟩ := hc
        exact ⟨refs2, List.mem_cons_of_mem _ hm, hcc, hfe⟩
      · intro hc
        obtain ⟨refs2, hm, hcc, hfe⟩ := hc
        rcases List.mem_cons.mp hm with hm | hm
        · exfalso
          apply hcond
          have hk2 : refs = refs2 := (congrArg Prod.snd hm).symm
          rw [← hk2] at hcc hfe
          exact ⟨(shrank_iff refs p r).mpr hcc, hfe⟩
        · exact ⟨refs2, hm, hcc, hfe⟩

theorem foldl_filter_mem (ds : List Digest) (init : BlobIndex) (e : Digest × RefList) :
    e ∈ ds.foldl (fun i h => i.filter fun e => decide (e.1 ≠ h)) init ↔
      e ∈ init ∧ e.1 ∉ ds := by
  induction ds generalizing init with
  | nil => simp
  | cons d rest ih =>
    simp only [List.foldl_cons, ih, List.mem_filter, List.mem_cons]
    constructor
    · intro hc
      refine ⟨hc.1.1, ?_⟩
      intro hor
      rcases hor with hor | hor
      · have := hc.1.2
        simp [hor] at this
      · exact hc.2 hor
    · intro hc
      refine ⟨⟨hc.1, ?_⟩, fun hmem => hc.2 (Or.inr hmem)⟩
      simp
      intro hk
      exact hc.2 (Or.inl hk)

theorem foldl_remove_apply (cache_dir : FsPath) (ds : List Digest) (fs : FS) (q : FsPath) :
    (ds.foldl (fun f h => FS.remove f (get_blob_path cache_dir h)) fs) q
      = if ds.any (fun h => decide (q = get_blob_path cache_dir h)) then none else fs q := by
  induction ds generalizing fs with
  | nil => simp
  | cons d rest ih =>
    simp only [List.foldl_cons, List.any_cons]
    rw [ih]
    by_cases hA : (rest.any fun h => decide (q = get_blob_path cache_dir h)) = true
    · rw [if_pos hA, if_pos (by simp [hA])]
    · have hA' : (rest.any fun h => decide (q = get_blob_path cache_dir h)) = false := by
        simpa using hA
      rw [if_neg hA]
      by_cases h1 : q = get_blob_path cache_dir d
      · rw [if_pos (by simp [h1])]
        simp [FS.remove, h1]
      · rw [if_neg (by simp [h1, hA'])]
        simp [FS.remove, h1]

theorem get_blob_path_inj (cache_dir : FsPath) (h1 h2 : Digest)
    (h : get_blob_path cache_dir h1 = get_blob_path cache_dir h2) : h1 = h2 := by
  unfold get_blob_path at h
  have h' := List.append_cancel_left h
  have h'' : h1.take 2 = h2.take 2 ∧ h1 = h2 := by simpa using h'
  exact h''.2

/-! ### C4: `replace_ref` (`remove_existing_ref`) postconditions -/

/-- C4: after `remove_existing_ref(profile, rel_path)` on an index with
unique digest keys in which at most one digest holds `(profile, rel_path)`:
(1) no digest's reference set contains the pair any more; (2) the returned
digest is `none` iff no digest held the pair; (3) if a digest held it, that
digest is returned; (4) a dereferenced digest whose set became empty is pruned
from the index and its blob file deleted; (5) a dereferenced digest with
remaining references keeps its (filtered) index entry and its blob file. -/
theorem remove_existing_ref_spec (cache_dir : FsPath) (st : CacheState) (p r : String)
    (hnd : (st.index.map Prod.fst).Nodup)
    (huniq : ∀ d1 refs1 d2 refs2, (d1, refs1) ∈ st.index → (d2, refs2) ∈ st.index →
      refsContain refs1 p r = true → refsContain refs2 p r = true → d1 = d2) :
    (∀ e ∈ ((remove_existing_ref cache_dir st p r).1).index, refsContain e.2 p r = false) ∧
    ((remove_existing_ref cache_dir st p r).2 = none ↔
      ∀ e ∈ st.index, refsContain e.2 p r = false) ∧
    (∀ d refs, (d, refs) ∈ st.index → refsContain refs p r = true →
      (remove_existing_ref cache_dir st p r).2 = some d) ∧
    (∀ d refs, (d, refs) ∈ st.index → refsContain refs p r = true →
      (refs.filter fun x => !(x.profile == p && x.rel_path == r)) = [] →
      (∀ e ∈ ((remove_existing_ref cache_dir st p r).1).index, e.1 ≠ d) ∧
      ((remove_existing_ref cache_dir st p r).1).fs (get_blob_path cache_dir d) = none) ∧
    (∀ d refs, (d, refs) ∈ st.index → refsContain refs p r = true →
      (refs.filter fun x => !(x.profile == p && x.rel_path == r)) ≠ [] →
      (d, refs.filter fun x => !(x.profile == p && x.rel_path == r))
          ∈ ((remove_existing_ref cache_dir st p r).1).index ∧
      ((remove_existing_ref cache_dir st p r).1).fs (get_blob_path cache_dir d)
          = st.fs (get_blob_path cache_dir d)) := by
  refine ⟨?_, ?_, ?_, ?_, ?_⟩
  · intro e he
    unfold remove_existing_ref at he
    simp only at he
    have he' := (foldl_filter_mem _ _ e).mp he
    rw [replace_scan_fst] at he'
    obtain ⟨f, _, hfe⟩ := List.mem_map.mp he'.1
    rw [← hfe]
    exact refsContain_filter_false f.2 p r
  · unfold remove_existing_ref
    simp only
    exact replace_scan_found_none_iff p r st.index
  · intro d refs hmem hcon
    unfold remove_existing_ref
    simp only
    cases hfound : (replace_scan p r st.index).2.1 with
    | none =>
      exfalso
      have := (replace_scan_found_none_iff p r st.index).mp hfound (d, refs) hmem
      rw [hcon] at this
      cases this
    | some h =>
      obtain ⟨refs2, hmem2, hcon2⟩ := replace_scan_found_some_mem p r st.index h hfound
      rw [huniq h refs2 d refs hmem2 hmem hcon2 hcon]
  · intro d refs hmem hcon hempty
    have hdrm : d ∈ (replace_scan p r st.index).2.2 :=
      (replace_scan_toRemove_iff p r st.index d).mpr ⟨refs, hmem, hcon, hempty⟩
    constructor
    · intro e he
      unfold remove_existing_ref at he
      simp only at he
      have he' := (foldl_filter_mem _ _ e).mp he
      intro hk
      exact he'.2 (hk ▸ hdrm)
    · unfold remove_existing_ref
      simp only
      rw [foldl_remove_apply]
      have : ((replace_scan p r st.index).2.2).any
          (fun h => decide (get_blob_path cache_dir d = get_blob_path cache_dir h)) = true := by
        apply List.any_eq_true.mpr
        exact ⟨d, hdrm, by simp⟩
      rw [this]
      simp
  · intro d refs hmem hcon hnem
    have hdnotrm : d ∉ (replace_scan p r st.index).2.2 := by
      intro hc
      obtain ⟨refs2, hmem2, hcon2, hfe2⟩ := (replace_scan_toRemove_iff p r st.index d).mp hc
      have hv := value_unique_of_nodup st.index d refs2 hnd hmem2 (d, refs) hmem rfl
      simp only at hv
      rw [hv] at hnem
      exact hnem hfe2
    constructor
    · unfold remove_existing_ref
      simp only
      apply (foldl_filter_mem _ _ _).mpr
      refine ⟨?_, hdnotrm⟩
      rw [replace_scan_fst]
      exact List.mem_map.mpr ⟨(d, refs), hmem, rfl⟩
    · unfold remove_existing_ref
      simp only
      rw [foldl_remove_apply]
      have : ((replace_scan p r st.index).2.2).any
          (fun h => decide (get_blob_path cache_dir d = get_blob_path cache_dir h)) = false := by
        apply List.any_eq_false.mpr
        intro h hh
        simp only [decide_eq_true_eq]
        intro heq
        exact hdnotrm ((get_blob_path_inj cache_dir d h heq) ▸ hh)
      rw [this]
      simp

/-- Witness for C4 at a concrete cache state with one holder of the pair and
one unrelated digest. -/
theorem remove_existing_ref_spec_witness :
    (((([("d1", [⟨"p", "r"⟩]), ("d2", [⟨"a", "b"⟩])] : BlobIndex).map Prod.fst).Nodup) ∧
      (remove_existing_ref ["cache"]
        ⟨[("d1", [⟨"p", "r"⟩]), ("d2", [⟨"a", "b"⟩])], fun _ => some [1]⟩ "p" "r").2
          = some ("d1")) := by
  constructor
  · decide
  · exact (remove_existing_ref_spec ["cache"]
      ⟨[("d1", [⟨"p", "r"⟩]), ("d2", [⟨"a", "b"⟩])], fun _ => some [1]⟩ "p" "r"
      (by decide)
      (by
        intro d1 refs1 d2 refs2 h1 h2 hc1 hc2
        simp only [List.mem_cons, List.not_mem_nil, or_false] at h1 h2
        rcases h1 with h1 | h1 <;> rcases h2 with h2 | h2 <;>
          (cases h1; cases h2; revert hc1 hc2; decide))).2.2.1 ("d1") [⟨"p", "r"⟩]
      (by simp) (by decide)

/-! ### C5: preservation of the pair-uniqueness invariant -/

theorem refsContain_of_filter (refs : RefList) (f : BlobReference → Bool) (p r : String)
    (h : refsContain (refs.filter f) p r = true) : refsContain refs p r = true := by
  obtain ⟨x, hx, hm⟩ := List.any_eq_true.mp h
  exact List.any_eq_true.mpr ⟨x, List.mem_of_mem_filter hx, hm⟩

theorem entry_origin_pair_unique (idx idx' : BlobIndex)
    (horig : ∀ e ∈ idx', ∃ e₀ ∈ idx, e.1 = e₀.1 ∧
      ∀ p' r', refsContain e.2 p' r' = true → refsContain e₀.2 p' r' = true)
    (hpu : IndexPairUnique idx) : IndexPairUnique idx' := by
  intro p' r' d1 refs1 d2 refs2 h1 h2 hc1 hc2
  obtain ⟨e1, he1, hk1, hcc1⟩ := horig (d1, refs1) h1
  obtain ⟨e2, he2, hk2, hcc2⟩ := horig (d2, refs2) h2
  simp only at hk1 hk2 hcc1 hcc2
  rw [hk1, hk2]
  exact hpu p' r' e1.1 e1.2 e2.1 e2.2 he1 he2 (hcc1 p' r' hc1) (hcc2 p' r' hc2)

theorem remove_ref_origin (idx : BlobIndex) (h : Digest) (p r : String) :
    ∀ e ∈ (remove_ref idx h p r).1, ∃ e₀ ∈ idx, e.1 = e₀.1 ∧
      ∀ p' r', refsContain e.2 p' r' = true → refsContain e₀.2 p' r' = true := by
  intro e he
  unfold remove_ref at he
  cases hl : lookupRefs idx h with
  | none =>
    rw [hl] at he
    exact ⟨e, he, rfl, fun _ _ hc => hc⟩
  | some refs =>
    rw [hl] at he
    simp only at he
    by_cases hemp : ((refs.filter fun x => !(x.profile == p && x.rel_path == r)).isEmpty = true)
    · rw [if_pos hemp] at he
      exact ⟨e, List.mem_of_mem_filter he, rfl, fun _ _ hc => hc⟩
    · rw [if_neg hemp] at he
      obtain ⟨e₀, he₀, heq⟩ := List.mem_map.mp he
      by_cases hk : e₀.1 = h
      · rw [if_pos hk] at heq
        refine ⟨(h, refs), mem_of_lookup_eq_some idx h refs hl, ?_, ?_⟩
        · rw [← heq, hk]
        · intro p' r' hc
          rw [← heq] at hc
          simp only at hc
          exact refsContain_of_filter refs _ p' r' hc
      · rw [if_neg hk] at heq
        exact ⟨e₀, he₀, by rw [← heq], fun p' r' hc => by rw [← heq] at hc; exact hc⟩

theorem remove_existing_ref_origin (cache_dir : FsPath) (st : CacheState) (p r : String) :
    ∀ e ∈ ((remove_existing_ref cache_dir st p r).1).index, ∃ e₀ ∈ st.index, e.1 = e₀.1 ∧
      ∀ p' r', refsContain e.2 p' r' = true → refsContain e₀.2 p' r' = true := by
  intro e he
  unfold remove_existing_ref at he
  simp only at he
  have he1 := ((foldl_filter_mem _ _ e).mp he).1
  rw [replace_scan_fst] at he1
  obtain ⟨e₀, he₀, heq⟩ := List.mem_map.mp he1
  refine ⟨e₀, he₀, by rw [← heq], ?_⟩
  intro p' r' hc
  rw [← heq] at hc
  simp only at hc
  exact refsContain_of_filter e₀.2 _ p' r' hc

theorem add_ref_map_entry (idx : BlobIndex) (d : Digest) (p r p' r' : String)
    (d1 : Digest) (refs1 : RefList)
    (h1 : (d1, refs1) ∈ idx.map fun e => if e.1 = d then (e.1, e.2 ++ [⟨p, r⟩]) else e)
    (hc1 : refsContain refs1 p' r' = true) :
    (∃ refsO, (d1, refsO) ∈ idx ∧ refsContain refsO p' r' = true) ∨
      (d1 = d ∧ p = p' ∧ r = r') := by
  obtain ⟨e, he, heq⟩ := List.mem_map.mp h1
  by_cases hk : e.1 = d
  · rw [if_pos hk] at heq
    have hd1 : e.1 = d1 := congrArg Prod.fst heq
    have hr1 : e.2 ++ [⟨p, r⟩] = refs1 := congrArg Prod.snd heq
    rw [← hr1] at hc1
    have hsplit : refsContain e.2 p' r' = true ∨ ((p == p' && r == r') = true) := by
      unfold refsContain at hc1 ⊢
      rw [List.any_append] at hc1
      rcases Bool.or_eq_true_iff.mp hc1 with hc | hc
      · exact Or.inl hc
      · right
        simpa [List.any_cons] using hc
    rcases hsplit with hc | hc
    · left
      refine ⟨e.2, ?_, hc⟩
      rw [← hd1]
      exact he
    · right
      have hc' : p = p' ∧ r = r' := by simpa using hc
      exact ⟨by rw [← hd1, hk], hc'⟩
  · rw [if_neg hk] at heq
    left
    refine ⟨refs1, ?_, hc1⟩
    rw [heq] at he
    exact he

theorem add_ref_preserves_pair_unique (idx : BlobIndex) (d : Digest) (p r : String)
    (hpu : IndexPairUnique idx)
    (hprov : ∀ d' refs', (d', refs') ∈ idx → refsContain refs' p r = true → d' = d) :
    IndexPairUnique (add_ref idx d p r) := by
  intro p' r' d1 refs1 d2 refs2 h1 h2 hc1 hc2
  unfold add_ref at h1 h2
  cases hl : lookupRefs idx d with
  | none =>
    rw [hl] at h1 h2
    rw [List.mem_append] at h1 h2
    have hnew : ∀ d' refs', (d', refs') ∈ ([(d, [(⟨p, r⟩ : BlobReference)])] : BlobIndex) →
        refsContain refs' p' r' = true → d' = d ∧ p = p' ∧ r = r' := by
      intro d' refs' hm hcc
      simp only [List.mem_singleton] at hm
      have hd' : d' = d := congrArg Prod.fst hm
      have hr' : refs' = [⟨p, r⟩] := congrArg Prod.snd hm
      rw [hr'] at hcc
      have : p = p' ∧ r = r' := by
        simpa [refsContain] using hcc
      exact ⟨hd', this⟩
    rcases h1 with h1 | h1 <;> rcases h2 with h2 | h2
    · exact hpu p' r' d1 refs1 d2 refs2 h1 h2 hc1 hc2
    · obtain ⟨hd2, hp, hr⟩ := hnew d2 refs2 h2 hc2
      rw [hd2]
      exact hprov d1 refs1 h1 (by rw [hp, hr]; exact hc1)
    · obtain ⟨hd1, hp, hr⟩ := hnew d1 refs1 h1 hc1
      rw [hd1]
      exact (hprov d2 refs2 h2 (by rw [hp, hr]; exact hc2)).symm
    · obtain ⟨hd1, _, _⟩ := hnew d1 refs1 h1 hc1
      obtain ⟨hd2, _, _⟩ := hnew d2 refs2 h2 hc2
      rw [hd1, hd2]
  | some refs =>
    rw [hl] at h1 h2
    simp only at h1 h2
    by_cases hcon : refsContain refs p r = true
    · rw [if_pos hcon] at h1 h2
      exact hpu p' r' d1 refs1 d2 refs2 h1 h2 hc1 hc2
    · rw [if_neg hcon] at h1 h2
      rcases add_ref_map_entry idx d p r p' r' d1 refs1 h1 hc1 with hca | hca <;>
        rcases add_ref_map_entry idx d p r p' r' d2 refs2 h2 hc2 with hcb | hcb
      · obtain ⟨ra, hma, hcca⟩ := hca
        obtain ⟨rb, hmb, hccb⟩ := hcb
        exact hpu p' r' d1 ra d2 rb hma hmb hcca hccb
      · obtain ⟨ra, hma, hcca⟩ := hca
        rw [hcb.1]
        exact hprov d1 ra hma (by rw [hcb.2.1, hcb.2.2]; exact hcca)
      · obtain ⟨rb, hmb, hccb⟩ := hcb
        rw [hca.1]
        exact (hprov d2 rb hmb (by rw [hca.2.1, hca.2.2]; exact hccb)).symm
      · rw [hca.1, hcb.1]

theorem normalize_file_index_cases (env : NormEnv) (profile : String)
    (fp : FsPath) (rel : String) (st : WatchState) :
    ((normalize_file env profile fp rel st).1).index = st.index ∨
      ∃ c, st.fs fp = some c ∧
        ((normalize_file env profile fp rel st).1).index
          = add_ref st.index (env.hash c) profile rel := by
  unfold normalize_file
  cases hf : st.fs fp with
  | none => exact Or.inl rfl
  | some c =>
    simp only
    by_cases hio : env.io_ok fp = true
    · rw [if_pos hio]
      by_cases hlk : ((st.fs (get_blob_path env.cache_dir (env.hash c))).isSome
          && env.hardlinked fp (get_blob_path env.cache_dir (env.hash c))) = true
      · rw [if_pos hlk]
        exact Or.inr ⟨c, rfl, rfl⟩
      · rw [if_neg hlk]
        exact Or.inr ⟨c, rfl, rfl⟩
    · rw [if_neg hio]
      exact Or.inl rfl

/-- C5 counterexample: on an index satisfying the invariant in which `(p, r)`
is referenced under digest `d1`, `add_ref(d2, p, r)` (as performed by the
normalizer when a file's content changes) leaves the pair in two digests'
reference sets, violating the invariant. -/
theorem add_ref_breaks_pair_unique_cex :
    IndexPairUnique [("d1", [⟨"p", "r"⟩])] ∧
    ¬ IndexPairUnique (add_ref [("d1", [⟨"p", "r"⟩])] "d2" "p" "r") := by
  constructor
  · intro p r d1 refs1 d2 refs2 h1 h2 _ _
    simp only [List.mem_singleton] at h1 h2
    injection h1 with hd1 hr1
    injection h2 with hd2 hr2
    rw [hd1, hd2]
  · intro h
    have h0 := h ("p") ("r") ("d1") [⟨"p", "r"⟩] ("d2") [⟨"p", "r"⟩]
      (by decide) (by decide) (by decide) (by decide)
    exact absurd h0 (by decide)

/-- C5 amended: `remove_ref` and `replace_ref` (`remove_existing_ref`) always
preserve the invariant that a pair appears in at most one digest's reference
set; `add_ref(d, p, r)` — and hence the normalizer's per-file processing,
which adds the new reference through `add_ref` without detaching an old one —
preserves it only under the proviso that `(p, r)` is not already referenced
under a digest other than the one being added (for a normalized file: other
than the hash of its current content). -/
theorem index_ops_preserve_pair_unique (idx : BlobIndex) :
    (∀ h p r, IndexPairUnique idx → IndexPairUnique (remove_ref idx h p r).1) ∧
    (∀ cache_dir fs p r, IndexPairUnique idx →
      IndexPairUnique ((remove_existing_ref cache_dir ⟨idx, fs⟩ p r).1).index) ∧
    (∀ d p r, IndexPairUnique idx →
      (∀ d' refs', (d', refs') ∈ idx → refsContain refs' p r = true → d' = d) →
      IndexPairUnique (add_ref idx d p r)) ∧
    (∀ env profile fp rel fs, IndexPairUnique idx →
      (∀ c, fs fp = some c → ∀ d' refs', (d', refs') ∈ idx →
        refsContain refs' profile rel = true → d' = NormEnv.hash env c) →
      IndexPairUnique ((normalize_file env profile fp rel ⟨fs, idx⟩).1).index) := by
  refine ⟨?_, ?_, ?_, ?_⟩
  · intro h p r hpu
    exact entry_origin_pair_unique idx _ (remove_ref_origin idx h p r) hpu
  · intro cache_dir fs p r hpu
    exact entry_origin_pair_unique idx _
      (remove_existing_ref_origin cache_dir ⟨idx, fs⟩ p r) hpu
  · intro d p r hpu hprov
    exact add_ref_preserves_pair_unique idx d p r hpu hprov
  · intro env profile fp rel fs hpu hprov
    rcases normalize_file_index_cases env profile fp rel ⟨fs, idx⟩ with hcase | hcase
    · rw [hcase]
      exact hpu
    · obtain ⟨c, hfc, heq⟩ := hcase
      rw [heq]
      exact add_ref_preserves_pair_unique idx _ profile rel hpu (hprov c hfc)

/-- Witness for the amended C5 at a concrete index: `remove_ref` on a
one-entry invariant-satisfying index preserves the invariant. -/
theorem index_ops_preserve_pair_unique_witness :
    IndexPairUnique [("d1", [⟨"p", "r"⟩])] ∧
    IndexPairUnique (remove_ref [("d1", [⟨"p", "r"⟩])] "d1" "p" "r").1 := by
  have hpu : IndexPairUnique [("d1", [⟨"p", "r"⟩])] := by
    intro p r d1 refs1 d2 refs2 h1 h2 _ _
    simp only [List.mem_singleton] at h1 h2
    injection h1 with hd1 hr1
    injection h2 with hd2 hr2
    rw [hd1, hd2]
  exact ⟨hpu, (index_ops_preserve_pair_unique [("d1", [⟨"p", "r"⟩])]).1 ("d1") ("p") ("r") hpu⟩

/-! ### C9: flush notification counting -/

theorem foldl_snd_mono {α β : Type} (f : (α × Nat) → β → (α × Nat))
    (hf : ∀ acc b, acc.2 ≤ (f acc b).2) :
    ∀ (l : List β) (acc : α × Nat), acc.2 ≤ (l.foldl f acc).2 := by
  intro l
  induction l with
  | nil => intro acc; exact Nat.le_refl _
  | cons b rest ih =>
    intro acc
    simp only [List.foldl_cons]
    exact Nat.le_trans (hf acc b) (ih (f acc b))

theorem normalize_file_ok_of_io_ok (env : NormEnv) (profile : String) (fp : FsPath)
    (rel : String) (st : WatchState) (hio : env.io_ok fp = true) :
    (normalize_file env profile fp rel st).2 = true := by
  unfold normalize_file
  cases hf : st.fs fp with
  | none => rfl
  | some c =>
    simp only
    rw [if_pos hio]
    by_cases hlk : ((st.fs (get_blob_path env.cache_dir (env.hash c))).isSome
        && env.hardlinked fp (get_blob_path env.cache_dir (env.hash c))) = true
    · rw [if_pos hlk]
    · rw [if_neg hlk]

theorem normalize_file_skip (env : NormEnv) (profile : String) (fp : FsPath)
    (rel : String) (st : WatchState) (hmiss : st.fs fp = none) :
    normalize_file env profile fp rel st = (st, true) := by
  unfold normalize_file
  rw [hmiss]

theorem process_step_mono (env : NormEnv) (profile : String) :
    ∀ (acc : WatchState × Nat) (ch : FileChangeEvent),
      acc.2 ≤ ((match ch.kind with
        | FileChangeKind.deleted => (handle_file_deletion profile ch.rel acc.1, acc.2)
        | _ =>
          let res := normalize_file env profile ch.path ch.rel acc.1
          (res.1, if res.2 then acc.2 + 1 else acc.2)) : WatchState × Nat).2 := by
  intro acc ch
  cases hk : ch.kind <;> simp only
  all_goals
    first
      | exact Nat.le_refl _
      | (cases (normalize_file env profile ch.path ch.rel acc.1).2 <;> simp)

/-- C9 counterexample: a flush consisting of a single Created event for a path
that no longer exists produces `normalized_count = 1` — the vanished-path skip
still returns `Ok` and is counted — so the `normalized` notification is
emitted although the state is unchanged and no file was normalized. -/
theorem skipped_event_counted_cex :
    process_file_changes ⟨fun _ => "aa", fun _ _ => false, fun _ => true, ["cache"]⟩ "p"
        [⟨["w", "f"], "f", FileChangeKind.created⟩]
        ⟨fun _ => none, []⟩
      = (⟨fun _ => none, []⟩, 1) ∧
    flush_emits_toast ⟨fun _ => "aa", fun _ _ => false, fun _ => true, ["cache"]⟩ "p"
        [⟨["w", "f"], "f", FileChangeKind.created⟩]
        ⟨fun _ => none, []⟩ = true := by
  constructor
  · rfl
  · rfl

/-- C9 amended: after each debounce flush, the single `normalized`
notification is emitted iff the batch contained at least one
Created/Modified/Renamed event whose processing returned `Ok` — which
includes events whose path no longer exists at flush time (the skip counts
toward `N`).  A flush containing only Deleted events emits no notification,
and a Created/Modified/Renamed event whose path vanished leaves the state
unchanged while still returning `Ok`. -/
theorem process_file_changes_toast (env : NormEnv) (profile : String)
    (changes : List FileChangeEvent) (st : WatchState) :
    ((∀ ch ∈ changes, ch.kind = FileChangeKind.deleted) →
      (process_file_changes env profile changes st).2 = 0 ∧
      flush_emits_toast env profile changes st = false) ∧
    (∀ ch ∈ changes, ch.kind ≠ FileChangeKind.deleted → env.io_ok ch.path = true →
      0 < (process_file_changes env profile changes st).2 ∧
      flush_emits_toast env profile changes st = true) ∧
    (∀ fp rel, st.fs fp = none → normalize_file env profile fp rel st = (st, true)) := by
  refine ⟨?_, ?_, ?_⟩
  · intro hall
    have key : ∀ (chs : List FileChangeEvent) (s : WatchState),
        (∀ ch ∈ chs, ch.kind = FileChangeKind.deleted) →
        (process_file_changes env profile chs s).2 = 0 := by
      intro chs
      induction chs with
      | nil => intro s _; rfl
      | cons ch rest ih =>
        intro s hall'
        have hch : ch.kind = FileChangeKind.deleted := hall' ch (List.mem_cons_self _ _)
        unfold process_file_changes
        simp only [List.foldl_cons, hch]
        exact ih (handle_file_deletion profile ch.rel s)
          (fun c hc => hall' c (List.mem_cons_of_mem _ hc))
    have h0 := key changes st hall
    refine ⟨h0, ?_⟩
    simp [flush_emits_toast, h0]
  · intro ch hch hkind hio
    obtain ⟨l1, l2, rfl⟩ := List.append_of_mem hch
    have hpos : 0 < (process_file_changes env profile (l1 ++ ch :: l2) st).2 := by
      unfold process_file_changes
      rw [List.foldl_append, List.foldl_cons]
      refine Nat.lt_of_lt_of_le ?_ (foldl_snd_mono _ (process_step_mono env profile) l2 _)
      have hok := normalize_file_ok_of_io_ok env profile ch.path ch.rel
        (l1.foldl (fun acc ch =>
          match ch.kind with
          | FileChangeKind.deleted => (handle_file_deletion profile ch.rel acc.1, acc.2)
          | _ =>
            let res := normalize_file env profile ch.path ch.rel acc.1
            (res.1, if res.2 then acc.2 + 1 else acc.2)) (st, 0)).1 hio
      cases hk : ch.kind with
      | deleted => exact absurd hk hkind
      | created => simp only [hok]; exact Nat.succ_pos _
      | modified => simp only [hok]; exact Nat.succ_pos _
      | renamed => simp only [hok]; exact Nat.succ_pos _
    refine ⟨hpos, ?_⟩
    have hne := Nat.pos_iff_ne_zero.mp hpos
    simp [flush_emits_toast, hne]
  · intro fp rel hmiss
    exact normalize_file_skip env profile fp rel st hmiss

/-- Witness for the amended C9 at a concrete deletion-only flush. -/
theorem process_file_changes_toast_witness :
    (∀ ch ∈ [(⟨["w", "g"], "g", FileChangeKind.deleted⟩ : FileChangeEvent)],
      ch.kind = FileChangeKind.deleted) ∧
    (process_file_changes ⟨fun _ => "aa", fun _ _ => false, fun _ => true, ["cache"]⟩ "p"
        [⟨["w", "g"], "g", FileChangeKind.deleted⟩] ⟨fun _ => none, []⟩).2 = 0 :=
  ⟨by intro ch hch; simp only [List.mem_singleton] at hch; rw [hch],
   ((process_file_changes_toast ⟨fun _ => "aa", fun _ _ => false, fun _ => true, ["cache"]⟩ "p"
      [⟨["w", "g"], "g", FileChangeKind.deleted⟩] ⟨fun _ => none, []⟩).1
      (by intro ch hch; simp only [List.mem_singleton] at hch; rw [hch])).1⟩

/-! ### C7: plan totals are consistent -/

theorem traverse_good_aux (n : Nat) :
    (∀ (getHash : String → Option String) (node : VNode) (path : String) (acc res : PlanAcc),
      sizeOf node ≤ n → traverse_and_plan getHash node path acc = some res →
      PlanAccGood acc → PlanAccGood res) ∧
    (∀ (getHash : String → Option String) (cs : List VNode) (path : String) (acc res : PlanAcc),
      sizeOf cs ≤ n → traverse_children getHash cs path acc = some res →
      PlanAccGood acc → PlanAccGood res) := by
  induction n using Nat.strong_induction_on with
  | _ n ih =>
    constructor
    · intro getHash node path acc res hsz h hg
      obtain ⟨name, is_directory, size, source, children⟩ := node
      unfold traverse_and_plan at h
      by_cases hdir : is_directory = true
      · rw [if_pos hdir] at h
        cases children with
        | none =>
          simp only at h
          cases h
          exact hg
        | some cs =>
          simp only at h
          have hlt : sizeOf cs < sizeOf (VNode.mk name is_directory size source (some cs)) := by
            simp
            omega
          exact (ih (sizeOf cs) (Nat.lt_of_lt_of_le hlt hsz)).2 getHash cs _ acc res
            (Nat.le_refl _) h hg
      · rw [if_neg hdir] at h
        simp only at h
        cases source with
        | Base =>
          simp only at h
          cases h
          simp [PlanAccGood] at hg ⊢
          omega
        | Workspace =>
          obtain ⟨hh, _, hres⟩ := Option.map_eq_some'.mp h
          cases hres
          simp [PlanAccGood] at hg ⊢
          omega
        | Override =>
          obtain ⟨hh, _, hres⟩ := Option.map_eq_some'.mp h
          cases hres
          simp [PlanAccGood] at hg ⊢
          omega
    · intro getHash cs path acc res hsz h hg
      cases cs with
      | nil =>
        unfold traverse_children at h
        cases h
        exact hg
      | cons c rest =>
        unfold traverse_children at h
        cases hstep : traverse_and_plan getHash c path acc with
        | none => rw [hstep] at h; cases h
        | some acc' =>
          rw [hstep] at h
          simp only at h
          have hltc : sizeOf c < sizeOf (c :: rest) := by
            simp
            omega
          have hltr : sizeOf rest < sizeOf (c :: rest) := by
            simp
          have hg' := (ih (sizeOf c) (Nat.lt_of_lt_of_le hltc hsz)).1 getHash c path acc acc'
            (Nat.le_refl _) hstep hg
          exact (ih (sizeOf rest) (Nat.lt_of_lt_of_le hltr hsz)).2 getHash rest path acc' res
            (Nat.le_refl _) h hg'

/-- C7: every plan produced by `compute_plan` satisfies
`total_files = base_files + blob_files`, `total_files` equals the number of
entries, and the sum of the entries' `size` fields equals `total_size`. -/
theorem compute_plan_totals (getHash : String → Option String)
    (profile_name generated_at : String) (tree : Option VNode) (plan : RuntimePlan)
    (h : compute_plan getHash profile_name generated_at tree = some plan) :
    plan.total_files = plan.base_files + plan.blob_files ∧
    plan.total_files = plan.entries.length ∧
    (plan.entries.map RuntimePlanEntry.size).sum = plan.total_size := by
  cases tree with
  | none => simp [compute_plan] at h
  | some root =>
    unfold compute_plan at h
    obtain ⟨acc, hacc, hres⟩ := Option.map_eq_some'.mp h
    have hg := (traverse_good_aux (sizeOf root)).1 getHash root ("") ⟨[], 0, 0, 0⟩ acc
      (Nat.le_refl _) hacc ⟨rfl, rfl⟩
    cases hres
    exact ⟨hg.1, rfl, hg.2⟩

/-- Witness for C7 on a concrete two-file virtual tree. -/
theorem compute_plan_totals_witness :
    compute_plan (fun _ => some ("h")) ("P") ("t")
        (some (VNode.mk ("Game Root") true none PlannerNodeSource.Base
          (some [VNode.mk ("a") false (some 3) PlannerNodeSource.Base none,
                 VNode.mk ("b") false (some 5) PlannerNodeSource.Workspace none])))
      = some ⟨"P", "t", 2, 8, 1, 1,
          [⟨"a", RuntimeSource.Base, 3, true, false⟩,
           ⟨"b", RuntimeSource.Blob ("h"), 5, false, false⟩]⟩ ∧
    (2 : Nat) = 1 + 1 := by
  constructor
  · decide
  · exact (compute_plan_totals (fun _ => some ("h")) ("P") ("t")
      (some (VNode.mk ("Game Root") true none PlannerNodeSource.Base
        (some [VNode.mk ("a") false (some 3) PlannerNodeSource.Base none,
               VNode.mk ("b") false (some 5) PlannerNodeSource.Workspace none])))
      ⟨"P", "t", 2, 8, 1, 1,
        [⟨"a", RuntimeSource.Base, 3, true, false⟩,
         ⟨"b", RuntimeSource.Blob ("h"), 5, false, false⟩]⟩ (by decide)).1

/-! ### C1: build failures never touch `<profile>-latest` -/

theorem link_entries_complete (ok : String → Bool) :
    ∀ (es : List RuntimePlanEntry) (staged : List String),
      (link_entries ok es staged).1 = true →
      (link_entries ok es staged).2 = staged ++ es.map RuntimePlanEntry.rel_path := by
  intro es
  induction es with
  | nil =>
    intro staged _
    simp [link_entries]
  | cons e rest ih =>
    intro staged h1
    unfold link_entries at h1 ⊢
    by_cases hok : ok e.rel_path = true
    · rw [if_pos hok] at h1 ⊢
      rw [ih _ h1]
      simp
    · rw [if_neg hok] at h1
      simp at h1

theorem build_runtime_characterization (env : BuildEnv) (st : RuntimesState) :
    (env.preflight_ok = false ∧ build_runtime env st = (BuildOutcome.PreflightFailed, st)) ∨
    (env.plan_result = none ∧ build_runtime env st = (BuildOutcome.PlanFailed, st)) ∨
    (env.create_temp_ok = false ∧ build_runtime env st = (BuildOutcome.CreateTempFailed, st)) ∨
    (∃ staged, build_runtime env st = (BuildOutcome.LinkBaseFailed, ⟨st.latest, some staged⟩)) ∨
    (∃ staged, build_runtime env st = (BuildOutcome.OverlayFailed, ⟨st.latest, some staged⟩)) ∨
    (∃ plan, env.plan_result = some plan ∧
      build_runtime env st = (BuildOutcome.Completed,
        ⟨some (((plan.entries.filter fun e => RuntimeSource.isBase e.source).map
              RuntimePlanEntry.rel_path)
            ++ ((plan.entries.filter fun e => RuntimeSource.isBlob e.source).map
              RuntimePlanEntry.rel_path)), none⟩)) := by
  cases hpf : env.preflight_ok with
  | false =>
    left
    exact ⟨rfl, by simp [build_runtime, hpf]⟩
  | true =>
    cases hplan : env.plan_result with
    | none =>
      right; left
      exact ⟨rfl, by simp [build_runtime, hpf, hplan]⟩
    | some plan =>
      cases hct : env.create_temp_ok with
      | false =>
        right; right; left
        exact ⟨rfl, by simp [build_runtime, hpf, hplan, hct]⟩
      | true =>
        cases hr1 : (link_entries env.base_link_ok
            (plan.entries.filter fun e => RuntimeSource.isBase e.source) []).1 with
        | false =>
          right; right; right; left
          refine ⟨(link_entries env.base_link_ok
            (plan.entries.filter fun e => RuntimeSource.isBase e.source) []).2, ?_⟩
          simp [build_runtime, hpf, hplan, hct, hr1]
        | true =>
          cases hr2 : (link_entries env.blob_link_ok
              (plan.entries.filter fun e => RuntimeSource.isBlob e.source)
              (link_entries env.base_link_ok
                (plan.entries.filter fun e => RuntimeSource.isBase e.source) []).2).1 with
          | false =>
            right; right; right; right; left
            refine ⟨(link_entries env.blob_link_ok
              (plan.entries.filter fun e => RuntimeSource.isBlob e.source)
              (link_entries env.base_link_ok
                (plan.entries.filter fun e => RuntimeSource.isBase e.source) []).2).2, ?_⟩
            simp [build_runtime, hpf, hplan, hct, hr1, hr2]
          | true =>
            right; right; right; right; right
            refine ⟨plan, rfl, ?_⟩
            have hs1 := link_entries_complete env.base_link_ok
              (plan.entries.filter fun e => RuntimeSource.isBase e.source) [] hr1
            rw [List.nil_append] at hs1
            rw [hs1] at hr2
            have hs2 := link_entries_complete env.blob_link_ok
              (plan.entries.filter fun e => RuntimeSource.isBlob e.source)
              ((plan.entries.filter fun e => RuntimeSource.isBase e.source).map
                RuntimePlanEntry.rel_path) hr2
            simp [build_runtime, hpf, hplan, hct, hr1, hs1, hr2, hs2]

/-- C1: if a build fails in any of preflight, plan computation, staging
creation, base linking or blob overlay, the existing `<profile>-latest` is
not deleted or modified; when staging was created (link/overlay failures) it
is left intact; failures before staging creation leave the whole runtimes
state untouched; and on a completed build `-latest` holds exactly the fully
populated staging contents (every planned file), never a partial build. -/
theorem build_runtime_failure_safety (env : BuildEnv) (st : RuntimesState) :
    ((build_runtime env st).1 ≠ BuildOutcome.Completed →
      ((build_runtime env st).2).latest = st.latest) ∧
    (((build_runtime env st).1 = BuildOutcome.LinkBaseFailed ∨
      (build_runtime env st).1 = BuildOutcome.OverlayFailed) →
      ((build_runtime env st).2).staging.isSome = true) ∧
    (((build_runtime env st).1 = BuildOutcome.PreflightFailed ∨
      (build_runtime env st).1 = BuildOutcome.PlanFailed ∨
      (build_runtime env st).1 = BuildOutcome.CreateTempFailed) →
      (build_runtime env st).2 = st) ∧
    (∀ plan, env.plan_result = some plan →
      (build_runtime env st).1 = BuildOutcome.Completed →
      ((build_runtime env st).2).latest
        = some (((plan.entries.filter fun e => RuntimeSource.isBase e.source).map
              RuntimePlanEntry.rel_path)
            ++ ((plan.entries.filter fun e => RuntimeSource.isBlob e.source).map
              RuntimePlanEntry.rel_path))) := by
  rcases build_runtime_characterization env st with
    ⟨_, hb⟩ | ⟨_, hb⟩ | ⟨_, hb⟩ | ⟨staged, hb⟩ | ⟨staged, hb⟩ | ⟨plan, hplan, hb⟩ <;>
    rw [hb]
  · refine ⟨fun _ => rfl, ?_, fun _ => rfl, ?_⟩
    · intro hc; rcases hc with hc | hc <;> cases hc
    · intro plan' _ hc; cases hc
  · refine ⟨fun _ => rfl, ?_, fun _ => rfl, ?_⟩
    · intro hc; rcases hc with hc | hc <;> cases hc
    · intro plan' _ hc; cases hc
  · refine ⟨fun _ => rfl, ?_, fun _ => rfl, ?_⟩
    · intro hc; rcases hc with hc | hc <;> cases hc
    · intro plan' _ hc; cases hc
  · refine ⟨fun _ => rfl, fun _ => rfl, ?_, ?_⟩
    · intro hc; rcases hc with hc | hc | hc <;> cases hc
    · intro plan' _ hc; cases hc
  · refine ⟨fun _ => rfl, fun _ => rfl, ?_, ?_⟩
    · intro hc; rcases hc with hc | hc | hc <;> cases hc
    · intro plan' _ hc; cases hc
  · refine ⟨fun hc => absurd rfl hc, ?_, ?_, ?_⟩
    · intro hc; rcases hc with hc | hc <;> cases hc
    · intro hc; rcases hc with hc | hc | hc <;> cases hc
    · intro plan' hplan' _
      rw [hplan] at hplan'
      cases hplan'
      rfl

/-- Witness for C1: a preflight failure leaves a pre-existing `-latest`
untouched. -/
theorem build_runtime_failure_safety_witness :
    (build_runtime ⟨false, none, true, fun _ => true, fun _ => true⟩
        ⟨some ["old"], none⟩).1 ≠ BuildOutcome.Completed ∧
    ((build_runtime ⟨false, none, true, fun _ => true, fun _ => true⟩
        ⟨some ["old"], none⟩).2).latest = some ["old"] :=
  ⟨by decide,
   (build_runtime_failure_safety ⟨false, none, true, fun _ => true, fun _ => true⟩
      ⟨some ["old"], none⟩).1 (by decide)⟩

/-! ### C2: tombstones do subtract from the overlay view -/

/-- C2 counterexample: for a base file `f` with no workspace counterpart,
`build_virtual_node` reports `Base` before a tombstone exists, but after
`create_tombstone("f")` the same path is an error — workspace state (a
tombstone) removes a base path from the virtual view, so the view is not
purely additive. -/
theorem tombstone_hides_base_path_cex :
    path_exists_in (VfsModel.mk [["f"]] [] []).base ["f"] = true ∧
    build_virtual_node (VfsModel.mk [["f"]] [] []) ["f"]
      = Except.ok ⟨VirtualNodeSource.Base, false, false⟩ ∧
    build_virtual_node (create_tombstone (VfsModel.mk [["f"]] [] []) ["f"]) ["f"]
      = Except.error ("tombstoned") := by
  refine ⟨rfl, rfl, rfl⟩

/-- C2 amended: a path present in the base installation is reported as
`WorkspaceOverride` when a workspace counterpart exists (tombstoned or not),
and as `Base` when there is no workspace counterpart and the path is not
tombstoned; but a tombstoned base path without a workspace counterpart is
removed from the virtual view (`build_virtual_node` errors). -/
theorem build_virtual_node_base_visibility (m : VfsModel) (p : List String)
    (hb : path_exists_in m.base p = true) :
    (path_exists_in m.workspace p = true →
      build_virtual_node m p
        = Except.ok ⟨VirtualNodeSource.WorkspaceOverride, is_dir_in m.workspace p, true⟩) ∧
    (path_exists_in m.workspace p = false → is_tombstoned m p = false →
      build_virtual_node m p
        = Except.ok ⟨VirtualNodeSource.Base, is_dir_in m.base p, false⟩) ∧
    (path_exists_in m.workspace p = false → is_tombstoned m p = true →
      build_virtual_node m p = Except.error ("tombstoned")) := by
  refine ⟨?_, ?_, ?_⟩
  · intro hw
    unfold build_virtual_node
    simp [hb, hw]
  · intro hw ht
    unfold build_virtual_node
    simp [hb, hw, ht]
  · intro hw ht
    unfold build_virtual_node
    simp [hb, hw, ht]

/-- Witness for the amended C2: a base file overridden by the workspace. -/
theorem build_virtual_node_base_visibility_witness :
    path_exists_in (VfsModel.mk [["g"]] [["g"]] []).base ["g"] = true ∧
    build_virtual_node (VfsModel.mk [["g"]] [["g"]] []) ["g"]
      = Except.ok ⟨VirtualNodeSource.WorkspaceOverride, false, true⟩ :=
  ⟨by decide,
   (build_virtual_node_base_visibility (VfsModel.mk [["g"]] [["g"]] []) ["g"]
      (by decide)).1 (by decide)⟩

/-! ### C8: which names the child enumeration hides -/

theorem mem_insert_child (a x : String × VNodeInfo) (l : List (String × VNodeInfo)) :
    x ∈ insert_child a l ↔ x = a ∨ x ∈ l := by
  induction l with
  | nil => simp [insert_child]
  | cons b l ih =>
    unfold insert_child
    by_cases hc : child_le a b = true
    · rw [if_pos hc]
      simp [List.mem_cons]
    · rw [if_neg hc]
      simp only [List.mem_cons, ih]
      tauto

theorem mem_sort_children (x : String × VNodeInfo) (l : List (String × VNodeInfo)) :
    x ∈ sort_children l ↔ x ∈ l := by
  induction l with
  | nil => simp [sort_children]
  | cons a l ih =>
    unfold sort_children
    rw [mem_insert_child, ih]
    simp [List.mem_cons]

theorem dir_child_names_mem (paths : List (List String)) (dir : List String) (n : String) :
    n ∈ dir_child_names paths dir ↔ dir ++ [n] ∈ paths := by
  unfold dir_child_names
  rw [List.mem_filterMap]
  constructor
  · rintro ⟨q, hq, hfq⟩
    by_cases ht : q.take dir.length = dir
    · rw [if_pos ht] at hfq
      cases hd : q.drop dir.length with
      | nil => rw [hd] at hfq; cases hfq
      | cons mhd rest =>
        cases rest with
        | nil =>
          rw [hd] at hfq
          have hmn : mhd = n := by
            simpa using hfq
          have hq' : q = dir ++ [n] := by
            have hsplit := (List.take_append_drop dir.length q).symm
            rw [ht, hd, hmn] at hsplit
            exact hsplit
          rw [← hq']
          exact hq
        | cons _ _ =>
          rw [hd] at hfq
          cases hfq
    · rw [if_neg ht] at hfq
      cases hfq
  · intro hmem
    refine ⟨dir ++ [n], hmem, ?_⟩
    have ht : (dir ++ [n]).take dir.length = dir := List.take_left dir [n]
    rw [if_pos ht, List.drop_left]

theorem build_virtual_node_ws_ok (m : VfsModel) (p : List String)
    (hw : path_exists_in m.workspace p = true) :
    ∃ info, build_virtual_node m p = Except.ok info := by
  unfold build_virtual_node
  simp only [hw, Bool.not_true, Bool.and_false, Bool.true_and, Bool.and_true]
  rw [if_neg (by simp)]
  by_cases hbase : path_exists_in m.base p = true
  · rw [if_pos hbase]
    exact ⟨_, rfl⟩
  · rw [if_neg hbase, if_pos trivial]
    exact ⟨_, rfl⟩

/-- C8 counterexample: a workspace entry named `.deltaruntime_meta` — which
begins with the reserved prefix `.deltaruntime_` — is not excluded from the
child enumeration; only the exact file name
`.deltaruntime_tombstones.json` is filtered. -/
theorem reserved_prefix_not_hidden_cex :
    ((".deltaruntime_".data).isPrefixOf ((".deltaruntime_meta").data)) = true ∧
    (build_virtual_children (VfsModel.mk [] [[".deltaruntime_meta"]] []) []).map Prod.fst
      = [".deltaruntime_meta"] := by
  refine ⟨rfl, rfl⟩

/-- C8 amended: when enumerating the children of a directory in the overlay
view, the only workspace entry name excluded by the reserved-name filter is
the exact string `.deltaruntime_tombstones.json`; every other workspace
entry (including names beginning `.deltaruntime_`) appears in the result
provided its path is not tombstoned. -/
theorem build_virtual_children_reserved_name (m : VfsModel) (dir : List String) :
    (∀ n, n ≠ ".deltaruntime_tombstones.json" →
      path_exists_in m.workspace (dir ++ [n]) = true →
      is_tombstoned m (dir ++ [n]) = false →
      n ∈ (build_virtual_children m dir).map Prod.fst) ∧
    (".deltaruntime_tombstones.json" ∉ (workspace_pass m dir).map Prod.fst) := by
  constructor
  · intro n hname hws htomb
    obtain ⟨info, hinfo⟩ := build_virtual_node_ws_ok m (dir ++ [n]) hws
    have hnmem : n ∈ dir_child_names m.workspace dir :=
      (dir_child_names_mem _ _ _).mpr (by simpa [path_exists_in] using hws)
    have hwsp : (n, info) ∈ workspace_pass m dir := by
      unfold workspace_pass
      rw [List.mem_filterMap]
      refine ⟨n, hnmem, ?_⟩
      rw [if_neg (by simpa using hname), if_neg (by simp [htomb]), hinfo]
    refine List.mem_map.mpr ⟨(n, info), ?_, rfl⟩
    unfold build_virtual_children
    rw [mem_sort_children]
    exact List.mem_append_left _ hwsp
  · intro hc
    rw [List.mem_map] at hc
    obtain ⟨x, hx, hfx⟩ := hc
    unfold workspace_pass at hx
    rw [List.mem_filterMap] at hx
    obtain ⟨n, _, hfn⟩ := hx
    by_cases he : (n == ".deltaruntime_tombstones.json") = true
    · rw [if_pos he] at hfn
      cases hfn
    · rw [if_neg he] at hfn
      have hx1 : x.1 = n := by
        by_cases ht : is_tombstoned m (dir ++ [n]) = true
        · rw [if_pos ht] at hfn
          cases hfn
        · rw [if_neg ht] at hfn
          cases hbn : build_virtual_node m (dir ++ [n]) with
          | ok info =>
            rw [hbn] at hfn
            simp only at hfn
            cases hfn
            rfl
          | error e =>
            rw [hbn] at hfn
            cases hfn
      rw [hx1] at hfx
      exact he (by simp [hfx])

/-- Witness for the amended C8: a workspace entry `.deltaruntime_meta` in
the root directory appears in the enumerated children. -/
theorem build_virtual_children_reserved_name_witness :
    path_exists_in (VfsModel.mk [] [[".deltaruntime_meta"]] []).workspace
        ([] ++ [".deltaruntime_meta"]) = true ∧
    ".deltaruntime_meta"
      ∈ (build_virtual_children (VfsModel.mk [] [[".deltaruntime_meta"]] []) []).map
          Prod.fst :=
  ⟨by decide,
   (build_virtual_children_reserved_name (VfsModel.mk [] [[".deltaruntime_meta"]] []) []).1
     (".deltaruntime_meta") (by decide) (by decide) (by decide)⟩

/-! ### C10: `get_profile` swallows load errors -/

/-- C10: `get_profile` returns `Ok(None)` whenever the profile directory
exists but `Profile::load` fails (metadata file missing, unreadable or
unparsable, or directory creation failing) — the same result as for a
profile that does not exist — and `get_profile` never returns an error. -/
theorem get_profile_swallows_load_errors (env : ProfileDirEnv) :
    (∀ e, env.dir_exists = true → Profile.load env = Except.error e →
      get_profile env = Except.ok none) ∧
    (env.dir_exists = false → get_profile env = Except.ok none) ∧
    (get_profile env).isOk = true := by
  refine ⟨?_, ?_, ?_⟩
  · intro e hd hl
    unfold get_profile
    rw [hd, hl]
    simp
  · intro hd
    unfold get_profile
    rw [hd]
    simp
  · unfold get_profile
    by_cases hd : env.dir_exists = true
    · rw [hd]
      cases hl : Profile.load env with
      | ok profile => rfl
      | error e => rfl
    · have hd' : env.dir_exists = false := by simpa using hd
      rw [hd']
      rfl

/-- Witness for C10: the profile directory exists but `profile.json` is
missing; `get_profile` still returns `Ok(None)`. -/
theorem get_profile_swallows_load_errors_witness :
    Profile.load ⟨true, false, none, fun _ => none, true⟩
      = Except.error ("Profile metadata not found") ∧
    get_profile ⟨true, false, none, fun _ => none, true⟩ = Except.ok none :=
  ⟨rfl,
   (get_profile_swallows_load_errors ⟨true, false, none, fun _ => none, true⟩).1
     ("Profile metadata not found") rfl rfl⟩

end DeltaRuntime
